import Mathlib

/-!
# The incremental request parser of `src/server.cc`

A shallow embedding of the struct `http_header_parser` (lines 34-94 of
`src/server.cc`) and the properties of its two methods `push_chunk` and
`_extract_header`.

Conventions of the embedding.

* A `std::string` / `std::string_view` is a `List Char`: one list element per
  byte, the byte being the character with the same code.  Nothing in the code
  looks at a byte other than by comparing it with an ASCII constant, so the
  functions below are uniform in the remaining characters.
* `std::string::npos` is `none`; a position that is not `npos` is `some i`.
* `size_t` is a natural number below `2 ^ 64`; the one place where a value is
  converted to `size_t` (`content_length = std::stoi(value)`) reduces modulo
  `2 ^ 64` explicitly.
* An exception leaving `_extract_header` is returned as data, together with the
  state of the object at the moment of the throw.
-/

/-! ## Standard-library operations used by the parser -/

/-- Index of the first place where `needle` starts in the given text, counted
from the start of the text; `none` when there is no such place. -/
def find_from (needle : List Char) : List Char → Option Nat
  | [] => if needle = [] then some 0 else none
  | c :: cs =>
    if needle.isPrefixOf (c :: cs) then some 0
    else (find_from needle cs).map (· + 1)

/-- Model of `std::string::find(needle, pos)`: the least index `i ≥ pos` at which
`needle` occurs in `s`, or `npos` (`none`).  A start position past the end gives
`npos`. -/
def find (s needle : List Char) (pos : Nat) : Option Nat :=
  if pos > s.length then none
  else (find_from needle (s.drop pos)).map (· + pos)

/-- Model of `std::string::substr(pos, len)`; `len = none` is the default
argument `npos` (everything up to the end).  The library throws when
`pos > size()`; every call in the parser passes a position obtained from a
successful `find` (plus the length of the text found), which is within the
string (see `find_some_le`). -/
def substr (s : List Char) (pos : Nat) (len : Option Nat) : List Char :=
  match len with
  | none => s.drop pos
  | some n => (s.drop pos).take n

/-- Model of `std::string::resize(n)`: truncate, or pad with NUL bytes. -/
def resize (s : List Char) (n : Nat) : List Char :=
  s.take n ++ List.replicate (n - s.length) (Char.ofNat 0)

/-- The exceptions `std::stoi` can throw. -/
inductive stoi_exception where
  | invalid_argument
  | out_of_range
  deriving DecidableEq

/-- Model of `isspace` in the "C" locale: space, `\t`, `\n`, `\v`, `\f`, `\r`. -/
def isspace (c : Char) : Bool :=
  c.toNat = 32 || (9 ≤ c.toNat && c.toNat ≤ 13)

/-- Value of a run of decimal digits, most significant digit first. -/
def digits_value (ds : List Char) : Nat :=
  ds.foldl (fun acc c => 10 * acc + (c.toNat - 48)) 0

/-- Model of `std::stoi(str)` (base 10, no position output), that is of `strtol`
followed by the range check of `stoi`: leading white space is skipped, one
optional sign is read, then the longest run of decimal digits; whatever follows
the digits is ignored.  No digit at all is `invalid_argument`; a value outside
the range of a 32-bit `int` is `out_of_range`. -/
def stoi (str : List Char) : Except stoi_exception Int :=
  let s1 := str.dropWhile isspace
  let neg : Bool := s1.head? = some '-'
  let s2 := if s1.head? = some '-' ∨ s1.head? = some '+' then s1.tail else s1
  let ds := s2.takeWhile Char.isDigit
  if ds = [] then Except.error stoi_exception.invalid_argument
  else
    let v : Int := if neg then - (digits_value ds : Int) else (digits_value ds : Int)
    if v < -(2 : Int) ^ 31 ∨ v > (2 : Int) ^ 31 - 1 then
      Except.error stoi_exception.out_of_range
    else Except.ok v

/-- Conversion of an `int` to `size_t` (64 bits): reduction modulo `2 ^ 64`. -/
def int_to_size_t (v : Int) : Nat := (v % (2 : Int) ^ 64).toNat

/-! ## The parser -/

/-- The two-byte line terminator `"\r\n"`. -/
def CRLF : List Char := ['\r', '\n']

/-- The four-byte header/body delimiter `"\r\n\r\n"`. -/
def CRLFCRLF : List Char := ['\r', '\n', '\r', '\n']

/-- The field separator `": "`. -/
def COLON_SPACE : List Char := [':', ' ']

/-- The data members of the struct `http_header_parser` of the source (the type
carries the suffix `_t` here). -/
structure http_header_parser_t where
  m_header : List Char
  m_body : List Char
  content_length : Nat
  m_body_finished : Bool
  m_header_finished : Bool
  deriving DecidableEq

namespace http_header_parser_t

/-- A freshly constructed parser (the default member initialisers). -/
def fresh : http_header_parser_t :=
  { m_header := [], m_body := [], content_length := 0,
    m_body_finished := false, m_header_finished := false }

/-- `bool hdeader_finished()` (the name is spelled so in the source). -/
def hdeader_finished (p : http_header_parser_t) : Bool := p.m_header_finished

/-- `bool need_more_chunks() const`. -/
def need_more_chunks (p : http_header_parser_t) : Bool := !p.m_body_finished

/-- The lambda passed to `std::transform`: ASCII upper case to lower case. -/
def to_lower (c : Char) : Char :=
  if 65 ≤ c.toNat ∧ c.toNat ≤ 90 then Char.ofNat (c.toNat + 32) else c

/-- The text `"content-length"` the lowered key is compared with. -/
def content_length_key : List Char := "content-length".toList

/-- The part of the loop body of `_extract_header` that works on one line
(source lines 56-71): split at the first `": "`, lower the key, and when the key
is `content-length` convert the value with `std::stoi` and store it.  The result
is the new `content_length` and the exception thrown, if any. -/
def extract_line (line : List Char) (content_length : Nat) :
    Nat × Option stoi_exception :=
  match find line COLON_SPACE 0 with
  | some colon =>
    let key := (substr line 0 (some colon)).map to_lower
    let value := substr line (colon + 2) none
    if key = content_length_key then
      match stoi value with
      | Except.ok v => (int_to_size_t v, none)
      | Except.error e => (content_length, some e)
    else (content_length, none)
  | none => (content_length, none)

/-- The `while (pos != npos)` loop of `_extract_header`, entered with `pos` not
`npos`.  The first argument bounds the number of iterations; `none` means the
bound was reached (it never is when the bound is the length of the header, see
`extract_header_returns`). -/
def extract_loop (m_header : List Char) :
    Nat → Nat → Nat → Option (Nat × Option stoi_exception)
  | 0, _, _ => none
  | fuel + 1, pos0, content_length =>
    let pos := pos0 + 2
    let next_pos := find m_header CRLF pos
    let line_len : Option Nat := next_pos.map (· - pos)
    let line := substr m_header pos line_len
    match extract_line line content_length with
    | (cl, some e) => some (cl, some e)
    | (cl, none) =>
      match next_pos with
      | none => some (cl, none)
      | some np => extract_loop m_header fuel np cl

/-- Outcome of a call of `_extract_header`: the object afterwards and the
exception that left the call, if any. -/
structure extract_outcome where
  state : http_header_parser_t
  thrown : Option stoi_exception
  deriving DecidableEq

/-- `void _extract_header()`.  `none` only if the iteration bound of the loop
were reached. -/
def _extract_header (p : http_header_parser_t) : Option extract_outcome :=
  match find p.m_header CRLF 0 with
  | none => some { state := p, thrown := none }
  | some pos =>
    (extract_loop p.m_header p.m_header.length pos p.content_length).map
      fun r => { state := { p with content_length := r.1 }, thrown := r.2 }

/-- `void push_chunk(std::string_view chunk)`. -/
def push_chunk (p : http_header_parser_t) (chunk : List Char) : http_header_parser_t :=
  if !p.m_header_finished then
    let m_header := p.m_header ++ chunk
    match find m_header CRLFCRLF 0 with
    | some header_len =>
      let m_body := substr m_header header_len none
      let body_len : Nat := 0
      { m_header := resize m_header header_len
        m_body := m_body
        content_length := p.content_length
        m_body_finished := if m_body.length ≥ body_len then true else p.m_body_finished
        m_header_finished := true }
    | none => { p with m_header := m_header }
  else
    { p with m_body := p.m_body ++ chunk }

/-- Pushing a list of chunks in order. -/
def push_chunks (p : http_header_parser_t) (chunks : List (List Char)) :
    http_header_parser_t :=
  chunks.foldl push_chunk p

end http_header_parser_t

/-! ## Vocabulary of the statements -/

/-- The text made of the given lines with `"\r\n"` between consecutive lines. -/
def crlf_lines : List (List Char) → List Char
  | [] => []
  | [l] => l
  | l :: l2 :: ls => l ++ CRLF ++ crlf_lines (l2 :: ls)

/-- Position `i` is the first place where `needle` occurs in `s`. -/
def first_occurrence (needle s : List Char) (i : Nat) : Prop :=
  needle <+: s.drop i ∧ ∀ j, j < i → ¬ needle <+: s.drop j

/-- The line has a `": "` and the text before the first one, lowered, is
`content-length`. -/
def names_content_length (line : List Char) : Bool :=
  match find line COLON_SPACE 0 with
  | some colon =>
    (substr line 0 (some colon)).map http_header_parser_t.to_lower
      = http_header_parser_t.content_length_key
  | none => false

/-- What the loop of `_extract_header` does to `content_length` when it is run
over the given lines in order: the effect of `extract_line` on each line, up to
and including the first line where `std::stoi` throws. -/
def scan_lines : List (List Char) → Nat → Nat × Option stoi_exception
  | [], cl => (cl, none)
  | l :: ls, cl =>
    match http_header_parser_t.extract_line l cl with
    | (cl2, some e) => (cl2, some e)
    | (cl2, none) => scan_lines ls cl2

open http_header_parser_t

/-! ## Facts about `find` -/

theorem find_zero (s needle : List Char) : find s needle 0 = find_from needle s := by
  simp [find]

theorem find_from_none_iff (needle s : List Char) (hn : needle ≠ []) :
    find_from needle s = none ↔ ¬ needle <:+: s := by
  induction s with
  | nil => simp [find_from, hn]
  | cons c cs ih =>
    rw [find_from, List.infix_cons_iff]
    by_cases hp : needle.isPrefixOf (c :: cs) = true
    · have hp2 : needle <+: c :: cs := List.isPrefixOf_iff_prefix.mp hp
      simp [hp, hp2]
    · have hp2 : ¬ needle <+: c :: cs := fun h => hp (List.isPrefixOf_iff_prefix.mpr h)
      simp [hp, hp2, ih]

theorem find_from_some_iff (needle s : List Char) (hn : needle ≠ []) (i : Nat) :
    find_from needle s = some i ↔ first_occurrence needle s i := by
  induction s generalizing i with
  | nil => simp [find_from, hn, first_occurrence]
  | cons c cs ih =>
    rw [find_from]
    by_cases hp : needle.isPrefixOf (c :: cs) = true
    · have hp2 : needle <+: c :: cs := List.isPrefixOf_iff_prefix.mp hp
      simp only [hp, if_true, Option.some.injEq, first_occurrence]
      constructor
      · intro h
        subst h
        exact ⟨by simpa using hp2, fun j hj => absurd hj (Nat.not_lt_zero j)⟩
      · intro h
        by_contra hi
        exact h.2 0 (Nat.pos_of_ne_zero (Ne.symm hi)) (by simpa using hp2)
    · have hp2 : ¬ needle <+: c :: cs := fun h => hp (List.isPrefixOf_iff_prefix.mpr h)
      simp only [hp, Bool.false_eq_true, if_false, Option.map_eq_some']
      constructor
      · rintro ⟨k, hk, rfl⟩
        have hk2 := (ih k).mp hk
        refine ⟨by simpa using hk2.1, fun j hj => ?_⟩
        cases j with
        | zero => simpa using hp2
        | succ j => simpa using hk2.2 j (by omega)
      · intro h
        cases i with
        | zero => exact absurd (by simpa using h.1) hp2
        | succ k =>
          refine ⟨k, (ih k).mpr ⟨by simpa using h.1, fun j hj => ?_⟩, rfl⟩
          simpa using h.2 (j + 1) (by omega)

theorem first_occurrence_bound {needle s : List Char} {i : Nat} (hn : needle ≠ [])
    (h : first_occurrence needle s i) : i + needle.length ≤ s.length := by
  have h1 := h.1.length_le
  have h2 : 0 < needle.length := List.length_pos.mpr hn
  rw [List.length_drop] at h1
  omega

theorem find_some_le {s needle : List Char} {i : Nat} (hn : needle ≠ [])
    (h : find s needle 0 = some i) : i + needle.length ≤ s.length := by
  rw [find_zero] at h
  exact first_occurrence_bound hn ((find_from_some_iff needle s hn i).mp h)

theorem first_occurrence_append {needle a : List Char} {i : Nat} (hn : needle ≠ [])
    (c : List Char) (h : first_occurrence needle a i) :
    first_occurrence needle (a ++ c) i := by
  have hb := first_occurrence_bound hn h
  refine ⟨?_, fun j hj hpre => ?_⟩
  · rw [List.drop_append_of_le_length (by omega)]
    exact h.1.trans (List.prefix_append _ _)
  · rw [List.drop_append_of_le_length (by omega)] at hpre
    refine h.2 j hj (List.prefix_of_prefix_length_le hpre (List.prefix_append _ _) ?_)
    rw [List.length_drop]
    omega

theorem find_from_append {needle a : List Char} {i : Nat} (hn : needle ≠ [])
    (c : List Char) (h : find_from needle a = some i) :
    find_from needle (a ++ c) = some i :=
  (find_from_some_iff needle (a ++ c) hn i).mpr
    (first_occurrence_append hn c ((find_from_some_iff needle a hn i).mp h))

theorem CRLFCRLF_ne_nil : CRLFCRLF ≠ [] := by simp [CRLFCRLF]

theorem CRLF_ne_nil : CRLF ≠ [] := by simp [CRLF]

/-! ## The three cases of `push_chunk` -/

theorem push_chunk_of_finished (p : http_header_parser_t) (c : List Char)
    (h : p.m_header_finished = true) :
    push_chunk p c = { p with m_body := p.m_body ++ c } := by
  simp [push_chunk, h]

theorem push_chunk_of_none (p : http_header_parser_t) (c : List Char)
    (h : p.m_header_finished = false)
    (hf : find_from CRLFCRLF (p.m_header ++ c) = none) :
    push_chunk p c = { p with m_header := p.m_header ++ c } := by
  simp [push_chunk, h, find_zero, hf]

theorem push_chunk_of_some (p : http_header_parser_t) (c : List Char) (i : Nat)
    (h : p.m_header_finished = false)
    (hf : find_from CRLFCRLF (p.m_header ++ c) = some i) :
    push_chunk p c =
      { m_header := (p.m_header ++ c).take i, m_body := (p.m_header ++ c).drop i,
        content_length := p.content_length, m_body_finished := true,
        m_header_finished := true } := by
  have hb := first_occurrence_bound CRLFCRLF_ne_nil
    ((find_from_some_iff CRLFCRLF _ CRLFCRLF_ne_nil i).mp hf)
  have hz : i - (p.m_header ++ c).length = 0 := by omega
  simp only [push_chunk, h, find_zero, hf, substr, resize, hz]
  simp

/-- Pushing `c` after `a` into a fresh parser is pushing `a ++ c` at once. -/
theorem push_chunk_fresh_append (a c : List Char) :
    push_chunk (push_chunk fresh a) c = push_chunk fresh (a ++ c) := by
  cases hfa : find_from CRLFCRLF a with
  | none =>
    have e1 : push_chunk fresh a = { fresh with m_header := a } := by
      rw [push_chunk_of_none fresh a rfl (by simpa [fresh] using hfa)]
      simp [fresh]
    rw [e1]
    cases hfc : find_from CRLFCRLF (a ++ c) with
    | none =>
      rw [push_chunk_of_none _ c rfl (by simpa using hfc),
        push_chunk_of_none fresh (a ++ c) rfl (by simpa [fresh] using hfc)]
      simp [fresh]
    | some i =>
      rw [push_chunk_of_some _ c i rfl (by simpa using hfc),
        push_chunk_of_some fresh (a ++ c) i rfl (by simpa [fresh] using hfc)]
      simp [fresh]
  | some i =>
    have hb := first_occurrence_bound CRLFCRLF_ne_nil
      ((find_from_some_iff CRLFCRLF _ CRLFCRLF_ne_nil i).mp hfa)
    have hfc := find_from_append CRLFCRLF_ne_nil c hfa
    rw [push_chunk_of_some fresh a i rfl (by simpa [fresh] using hfa),
      push_chunk_of_finished _ c rfl,
      push_chunk_of_some fresh (a ++ c) i rfl (by simpa [fresh] using hfc)]
    have h1 : List.take i (a ++ c) = List.take i a :=
      List.take_append_of_le_length (by omega)
    have h2 : List.drop i (a ++ c) = List.drop i a ++ c :=
      List.drop_append_of_le_length (by omega)
    simp [fresh, h1, h2]

theorem push_chunk_fresh_nil : push_chunk fresh [] = fresh := by decide

/-- Pushing chunks one after the other is pushing their concatenation at once. -/
theorem push_chunks_eq_single (a : List Char) (chunks : List (List Char)) :
    push_chunks (push_chunk fresh a) chunks = push_chunk fresh (a ++ chunks.flatten) := by
  induction chunks generalizing a with
  | nil => simp [push_chunks]
  | cons c cs ih =>
    have := ih (a ++ c)
    simp only [push_chunks, List.foldl_cons, List.flatten_cons] at this ⊢
    rw [push_chunk_fresh_append, this, List.append_assoc]

theorem push_chunks_fresh (chunks : List (List Char)) :
    push_chunks fresh chunks = push_chunk fresh chunks.flatten := by
  have := push_chunks_eq_single [] chunks
  rwa [push_chunk_fresh_nil, List.nil_append] at this

/-- Closed form of pushing a text into a fresh parser. -/
theorem push_chunk_fresh_closed (R : List Char) :
    push_chunk fresh R =
      match find_from CRLFCRLF R with
      | some i => { m_header := R.take i, m_body := R.drop i, content_length := 0,
                    m_body_finished := true, m_header_finished := true }
      | none => { m_header := R, m_body := [], content_length := 0,
                  m_body_finished := false, m_header_finished := false } := by
  cases hf : find_from CRLFCRLF R with
  | none =>
    rw [push_chunk_of_none fresh R rfl (by simpa [fresh] using hf)]
    simp [fresh]
  | some i =>
    rw [push_chunk_of_some fresh R i rfl (by simpa [fresh] using hf)]
    simp [fresh]

theorem push_chunks_of_finished (p : http_header_parser_t) (chunks : List (List Char))
    (h : p.m_header_finished = true) :
    push_chunks p chunks = { p with m_body := p.m_body ++ chunks.flatten } := by
  induction chunks generalizing p with
  | nil => simp [push_chunks]
  | cons c cs ih =>
    have := ih (push_chunk p c) (by rw [push_chunk_of_finished p c h]; exact h)
    simp only [push_chunks, List.foldl_cons] at this ⊢
    rw [this, push_chunk_of_finished p c h]
    simp

theorem need_more_chunks_fresh (R : List Char) :
    need_more_chunks (push_chunk fresh R) = true ↔ ¬ CRLFCRLF <:+: R := by
  rw [← find_from_none_iff CRLFCRLF R CRLFCRLF_ne_nil, push_chunk_fresh_closed]
  cases find_from CRLFCRLF R <;> simp [need_more_chunks]

theorem infix_of_first_occurrence {needle s : List Char} {i : Nat}
    (h : first_occurrence needle s i) : needle <:+: s :=
  h.1.isInfix.trans (List.drop_suffix i s).isInfix

theorem first_occurrence_exists {needle s : List Char} (hn : needle ≠ [])
    (h : needle <:+: s) : ∃ i, first_occurrence needle s i := by
  cases hf : find_from needle s with
  | none => exact absurd h ((find_from_none_iff needle s hn).mp hf)
  | some i => exact ⟨i, (find_from_some_iff needle s hn i).mp hf⟩

theorem first_occurrence_unique {needle s : List Char} {i j : Nat}
    (hi : first_occurrence needle s i) (hj : first_occurrence needle s j) : i = j := by
  rcases Nat.lt_trichotomy i j with h | h | h
  · exact absurd hi.1 (hj.2 i h)
  · exact h
  · exact absurd hj.1 (hi.2 j h)

/-- An occurrence that lies inside a prefix of the text is an occurrence in the prefix. -/
theorem first_occurrence_of_append {needle a b : List Char} {i : Nat}
    (h : first_occurrence needle (a ++ b) i) (hb : i + needle.length ≤ a.length) :
    first_occurrence needle a i := by
  refine ⟨?_, fun j hj hpre => ?_⟩
  · have h1 := h.1
    rw [List.drop_append_of_le_length (by omega)] at h1
    refine List.prefix_of_prefix_length_le h1 (List.prefix_append _ _) ?_
    rw [List.length_drop]
    omega
  · refine h.2 j hj ?_
    rw [List.drop_append_of_le_length (by omega)]
    exact hpre.trans (List.prefix_append _ _)

theorem header_no_delimiter {needle s : List Char} {i : Nat} (hn : needle ≠ [])
    (h : first_occurrence needle s i) : ¬ needle <:+: s.take i := by
  intro hin
  obtain ⟨j, hj⟩ := first_occurrence_exists hn hin
  have hb := first_occurrence_bound hn hj
  have hlen : 0 < needle.length := List.length_pos.mpr hn
  rw [List.length_take] at hb
  have hj2 : first_occurrence needle (s.take i ++ s.drop i) j :=
    first_occurrence_append hn _ hj
  rw [List.take_append_drop] at hj2
  have := first_occurrence_unique h hj2
  omega

/-! ## The claims about `push_chunk` -/

/-- C1. Chunk-boundary independence: however a byte sequence is cut into chunks
(empty chunks included), pushing the chunks in order into a fresh parser gives
the same state, all five fields, as pushing the whole sequence as one chunk; and
after the first `k` chunks `need_more_chunks()` is false exactly when those `k`
chunks reach the last byte (index `i + 3`) of the first `"\r\n\r\n"` of the whole
sequence, `i` being where that first delimiter starts. -/
theorem push_chunk_boundary_independent (chunks : List (List Char)) :
    push_chunks fresh chunks = push_chunk fresh chunks.flatten ∧
    ∀ k, need_more_chunks (push_chunks fresh (chunks.take k)) = false ↔
      ∃ i, first_occurrence CRLFCRLF chunks.flatten i ∧
        i + 4 ≤ (chunks.take k).flatten.length := by
  refine ⟨push_chunks_fresh chunks, fun k => ?_⟩
  have hsplit : chunks.flatten = (chunks.take k).flatten ++ (chunks.drop k).flatten := by
    rw [← List.flatten_append, List.take_append_drop]
  rw [push_chunks_fresh, hsplit]
  generalize (chunks.take k).flatten = a
  generalize (chunks.drop k).flatten = b
  have hnm := need_more_chunks_fresh a
  constructor
  · intro h
    have hin : CRLFCRLF <:+: a := by
      by_contra hc
      rw [hnm.mpr hc] at h
      exact absurd h (by decide)
    obtain ⟨i, hi⟩ := first_occurrence_exists CRLFCRLF_ne_nil hin
    exact ⟨i, first_occurrence_append CRLFCRLF_ne_nil b hi,
      first_occurrence_bound CRLFCRLF_ne_nil hi⟩
  · rintro ⟨i, hi, hb⟩
    have hin : CRLFCRLF <:+: a :=
      infix_of_first_occurrence (first_occurrence_of_append hi hb)
    cases hv : need_more_chunks (push_chunk fresh a) with
    | false => rfl
    | true => exact absurd hin (hnm.mp hv)

/-- C2. Header/body split at the transition: when the chunks pushed so far into a
fresh parser do not contain `"\r\n\r\n"` and the next chunk `c` completes one,
then before that push `m_header_finished` is false and `m_body` is empty, and
after it `m_header_finished` is true, `m_header` is the accumulated input before
the first occurrence of the delimiter (and contains no delimiter) and `m_body` is
the accumulated input from that occurrence on, so it starts with the delimiter. -/
theorem push_chunk_header_body_split (pre : List (List Char)) (c : List Char)
    (hbefore : ¬ CRLFCRLF <:+: pre.flatten)
    (hafter : CRLFCRLF <:+: pre.flatten ++ c) :
    (push_chunks fresh pre).m_header_finished = false ∧
    (push_chunks fresh pre).m_body = [] ∧
    (push_chunk (push_chunks fresh pre) c).m_header_finished = true ∧
    ∃ i, first_occurrence CRLFCRLF (pre.flatten ++ c) i ∧
      (push_chunk (push_chunks fresh pre) c).m_header = (pre.flatten ++ c).take i ∧
      (push_chunk (push_chunks fresh pre) c).m_body = (pre.flatten ++ c).drop i ∧
      CRLFCRLF <+: (push_chunk (push_chunks fresh pre) c).m_body ∧
      ¬ CRLFCRLF <:+: (push_chunk (push_chunks fresh pre) c).m_header := by
  obtain ⟨i, hi⟩ := first_occurrence_exists CRLFCRLF_ne_nil hafter
  have h1 : find_from CRLFCRLF pre.flatten = none :=
    (find_from_none_iff _ _ CRLFCRLF_ne_nil).mpr hbefore
  have h2 : find_from CRLFCRLF (pre.flatten ++ c) = some i :=
    (find_from_some_iff _ _ CRLFCRLF_ne_nil i).mpr hi
  have e1 := push_chunk_fresh_closed pre.flatten
  have e2 := push_chunk_fresh_closed (pre.flatten ++ c)
  rw [h1] at e1
  rw [h2] at e2
  rw [push_chunks_fresh, push_chunk_fresh_append, e1, e2]
  exact ⟨rfl, rfl, rfl, i, hi, rfl, rfl, hi.1, header_no_delimiter CRLFCRLF_ne_nil hi⟩

/-- Witness of C2: the chunks `"GET / HTTP/1.1\r\nHost: x\r"` and then `"\n\r\nab"`. -/
theorem push_chunk_header_body_split_witness :
    (push_chunks fresh ["GET / HTTP/1.1\r\nHost: x\r".toList]).m_header_finished = false ∧
    (push_chunks fresh ["GET / HTTP/1.1\r\nHost: x\r".toList]).m_body = [] ∧
    (push_chunk (push_chunks fresh ["GET / HTTP/1.1\r\nHost: x\r".toList])
      "\n\r\nab".toList).m_header_finished = true ∧
    ∃ i, first_occurrence CRLFCRLF
        (["GET / HTTP/1.1\r\nHost: x\r".toList].flatten ++ "\n\r\nab".toList) i ∧
      (push_chunk (push_chunks fresh ["GET / HTTP/1.1\r\nHost: x\r".toList])
        "\n\r\nab".toList).m_header =
        (["GET / HTTP/1.1\r\nHost: x\r".toList].flatten ++ "\n\r\nab".toList).take i ∧
      (push_chunk (push_chunks fresh ["GET / HTTP/1.1\r\nHost: x\r".toList])
        "\n\r\nab".toList).m_body =
        (["GET / HTTP/1.1\r\nHost: x\r".toList].flatten ++ "\n\r\nab".toList).drop i ∧
      CRLFCRLF <+: (push_chunk (push_chunks fresh ["GET / HTTP/1.1\r\nHost: x\r".toList])
        "\n\r\nab".toList).m_body ∧
      ¬ CRLFCRLF <:+: (push_chunk (push_chunks fresh ["GET / HTTP/1.1\r\nHost: x\r".toList])
        "\n\r\nab".toList).m_header :=
  push_chunk_header_body_split ["GET / HTTP/1.1\r\nHost: x\r".toList] "\n\r\nab".toList
    (by rw [← find_from_none_iff _ _ CRLFCRLF_ne_nil]; decide)
    (by
      have h : find_from CRLFCRLF
          (["GET / HTTP/1.1\r\nHost: x\r".toList].flatten ++ "\n\r\nab".toList) = some 23 := by
        decide
      exact infix_of_first_occurrence ((find_from_some_iff _ _ CRLFCRLF_ne_nil 23).mp h))

/-- C3 (the code at the claim's input). After the single push of
`"Content-Length: 3\r\n\r\n"`, and equally of a request with a request line in
front, `need_more_chunks()` is already false with no body byte supplied, with 1
and with 2: `push_chunk` compares the body size with the constant `body_len = 0`
and never looks at the declared length, which is still 0. -/
theorem completion_ignores_declared_length :
    need_more_chunks (push_chunk fresh "Content-Length: 3\r\n\r\n".toList) = false ∧
    need_more_chunks
      (push_chunks fresh ["Content-Length: 3\r\n\r\n".toList, "a".toList]) = false ∧
    need_more_chunks
      (push_chunks fresh ["Content-Length: 3\r\n\r\n".toList, "a".toList, "b".toList])
        = false ∧
    (push_chunk fresh "Content-Length: 3\r\n\r\n".toList).content_length = 0 ∧
    need_more_chunks
      (push_chunk fresh "POST / HTTP/1.1\r\nContent-Length: 3\r\n\r\n".toList) = false := by
  decide

/-- C4. No body declared: for every list of chunks pushed into a fresh parser
(in particular one whose concatenation has no `Content-Length` header), after
each push `need_more_chunks()` is true exactly when the input accumulated so far
does not contain `"\r\n\r\n"`, so it is false right after the push that completes
the first delimiter, and the declared length stays 0.  The request
`"GET / HTTP/1.1\r\nHost: x\r\n\r\n"` pushed as one chunk completes at once and
leaves `m_header = "GET / HTTP/1.1\r\nHost: x"`. -/
theorem need_more_chunks_until_delimiter (chunks : List (List Char)) :
    (∀ k, need_more_chunks (push_chunks fresh (chunks.take k)) = true ↔
      ¬ CRLFCRLF <:+: (chunks.take k).flatten) ∧
    (∀ k, (push_chunks fresh (chunks.take k)).content_length = 0) ∧
    need_more_chunks
      (push_chunk fresh "GET / HTTP/1.1\r\nHost: x\r\n\r\n".toList) = false ∧
    (push_chunk fresh "GET / HTTP/1.1\r\nHost: x\r\n\r\n".toList).m_header
      = "GET / HTTP/1.1\r\nHost: x".toList := by
  refine ⟨fun k => ?_, fun k => ?_, by decide, by decide⟩
  · rw [push_chunks_fresh]
    exact need_more_chunks_fresh _
  · rw [push_chunks_fresh, push_chunk_fresh_closed]
    cases find_from CRLFCRLF (chunks.take k).flatten <;> rfl

/-- C6 (the code at a failing input). After the push that finishes the header of
`"POST / HTTP/1.1\r\nContent-Length: 5\r\n\r\n"` the field `content_length` is 0,
not 5: `push_chunk` does not call `_extract_header`.  Calling `_extract_header`
on the state reached gives 5.  Whatever is pushed into a fresh parser,
`content_length` stays 0. -/
theorem push_chunk_leaves_content_length :
    (push_chunk fresh
      "POST / HTTP/1.1\r\nContent-Length: 5\r\n\r\n".toList).m_header_finished = true ∧
    (push_chunk fresh
      "POST / HTTP/1.1\r\nContent-Length: 5\r\n\r\n".toList).content_length = 0 ∧
    (_extract_header (push_chunk fresh
      "POST / HTTP/1.1\r\nContent-Length: 5\r\n\r\n".toList)).map
        (fun r => (r.state.content_length, r.thrown)) = some (5, none) ∧
    ∀ chunks : List (List Char), (push_chunks fresh chunks).content_length = 0 := by
  refine ⟨by decide, by decide, by decide, fun chunks => ?_⟩
  rw [push_chunks_fresh, push_chunk_fresh_closed]
  cases find_from CRLFCRLF chunks.flatten <;> rfl

/-- C8. Header completion is permanent: in a state with `m_header_finished` true,
`push_chunk c` only appends `c` to `m_body`; `m_header_finished` stays true and
`m_header`, `content_length` and `m_body_finished` are unchanged.  Hence after any
further list of chunks `m_header_finished` is still true. -/
theorem header_finished_permanent (p : http_header_parser_t) (c : List Char)
    (chunks : List (List Char)) (h : p.m_header_finished = true) :
    (push_chunk p c).m_header_finished = true ∧
    (push_chunk p c).m_header = p.m_header ∧
    (push_chunk p c).content_length = p.content_length ∧
    (push_chunk p c).m_body_finished = p.m_body_finished ∧
    (push_chunk p c).m_body = p.m_body ++ c ∧
    (push_chunks p chunks).m_header_finished = true := by
  rw [push_chunk_of_finished p c h, push_chunks_of_finished p chunks h]
  exact ⟨h, rfl, rfl, rfl, rfl, h⟩

/-- Witness of C8: the state after `"GET / HTTP/1.1\r\n\r\n"`, then the chunk `"ab"`,
then the chunks `"c"` and `"\r\n\r\n"`. -/
theorem header_finished_permanent_witness :
    (push_chunk fresh "GET / HTTP/1.1\r\n\r\n".toList).m_header_finished = true ∧
    (push_chunk (push_chunk fresh "GET / HTTP/1.1\r\n\r\n".toList)
      "ab".toList).m_header_finished = true ∧
    (push_chunk (push_chunk fresh "GET / HTTP/1.1\r\n\r\n".toList) "ab".toList).m_header
      = (push_chunk fresh "GET / HTTP/1.1\r\n\r\n".toList).m_header ∧
    (push_chunk (push_chunk fresh "GET / HTTP/1.1\r\n\r\n".toList)
      "ab".toList).content_length
      = (push_chunk fresh "GET / HTTP/1.1\r\n\r\n".toList).content_length ∧
    (push_chunk (push_chunk fresh "GET / HTTP/1.1\r\n\r\n".toList)
      "ab".toList).m_body_finished
      = (push_chunk fresh "GET / HTTP/1.1\r\n\r\n".toList).m_body_finished ∧
    (push_chunk (push_chunk fresh "GET / HTTP/1.1\r\n\r\n".toList) "ab".toList).m_body
      = (push_chunk fresh "GET / HTTP/1.1\r\n\r\n".toList).m_body ++ "ab".toList ∧
    (push_chunks (push_chunk fresh "GET / HTTP/1.1\r\n\r\n".toList)
      ["c".toList, "\r\n\r\n".toList]).m_header_finished = true :=
  ⟨by decide,
    header_finished_permanent (push_chunk fresh "GET / HTTP/1.1\r\n\r\n".toList)
      "ab".toList ["c".toList, "\r\n\r\n".toList] (by decide)⟩

/-- C10. Byte conservation: after each push of a list of chunks (empty chunks
allowed) into a fresh parser, `m_header ++ m_body` is the concatenation of the
chunks pushed so far, and `m_body` is empty unless `m_header_finished` is true. -/
theorem push_chunks_conserves_bytes (chunks : List (List Char)) (k : Nat) :
    (push_chunks fresh (chunks.take k)).m_header ++
        (push_chunks fresh (chunks.take k)).m_body = (chunks.take k).flatten ∧
    ((push_chunks fresh (chunks.take k)).m_body = [] ∨
      (push_chunks fresh (chunks.take k)).m_header_finished = true) := by
  rw [push_chunks_fresh, push_chunk_fresh_closed]
  cases find_from CRLFCRLF (chunks.take k).flatten with
  | none => exact ⟨by simp, Or.inl rfl⟩
  | some i => exact ⟨by simp, Or.inr rfl⟩

/-! ## Lines of the header text -/

theorem find_of_le (s needle : List Char) (pos : Nat) (h : pos ≤ s.length) :
    find s needle pos = (find_from needle (s.drop pos)).map (· + pos) := by
  simp [find, Nat.not_lt.mpr h]

theorem find_some_bounds {s needle : List Char} {pos np : Nat} (hn : needle ≠ [])
    (h : find s needle pos = some np) : pos ≤ np ∧ np + needle.length ≤ s.length := by
  unfold find at h
  split at h
  · exact absurd h (by simp)
  · rename_i hle
    rw [Option.map_eq_some'] at h
    obtain ⟨i, hi, rfl⟩ := h
    have hb := first_occurrence_bound hn ((find_from_some_iff _ _ hn i).mp hi)
    rw [List.length_drop] at hb
    omega

/-- A line without `"\r\n"` followed by `"\r\n"`: the first `"\r\n"` is the one
that follows the line. -/
theorem find_from_line_crlf (l rest : List Char) (hl : ¬ CRLF <:+: l) :
    find_from CRLF (l ++ (CRLF ++ rest)) = some l.length := by
  rw [find_from_some_iff _ _ CRLF_ne_nil]
  refine ⟨?_, fun j hj hpre => ?_⟩
  · rw [List.drop_left]
    exact List.prefix_append _ _
  · rw [List.drop_append_of_le_length (by omega)] at hpre
    have hsuf : l.drop j <:+: l := (List.drop_suffix j l).isInfix
    have hlen : 0 < (l.drop j).length := by rw [List.length_drop]; omega
    generalize l.drop j = d at hpre hsuf hlen
    match d, hlen with
    | [x], _ =>
      obtain ⟨t, ht⟩ := hpre
      simp [CRLF] at ht
    | x :: y :: d2, _ =>
      obtain ⟨t, ht⟩ := hpre
      simp only [CRLF, List.cons_append, List.nil_append, List.cons.injEq] at ht
      apply hl
      refine List.IsInfix.trans ?_ hsuf
      refine (List.IsPrefix.isInfix ?_)
      refine ⟨d2, ?_⟩
      rw [← ht.1, ← ht.2.1]
      rfl

theorem find_from_line (l : List Char) (hl : ¬ CRLF <:+: l) : find_from CRLF l = none :=
  (find_from_none_iff _ _ CRLF_ne_nil).mpr hl

theorem length_le_crlf_lines (ls : List (List Char)) :
    ls.length ≤ (crlf_lines ls).length + 1 := by
  induction ls with
  | nil => simp
  | cons l ls ih =>
    cases ls with
    | nil => simp [crlf_lines]
    | cons l2 ls =>
      simp only [crlf_lines, List.length_append, List.length_cons, CRLF] at ih ⊢
      simp only [List.length_nil] at ih ⊢
      omega

/-- The loop of `_extract_header`, entered at the `"\r\n"` in front of a block of
lines, handles these lines one after the other. -/
theorem extract_loop_lines (ls : List (List Char)) :
    ∀ (l pre : List Char) (fuel cl : Nat),
      (∀ x ∈ l :: ls, ¬ CRLF <:+: x) → (l :: ls).length ≤ fuel →
      extract_loop (pre ++ (CRLF ++ crlf_lines (l :: ls))) fuel pre.length cl
        = some (scan_lines (l :: ls) cl) := by
  induction ls with
  | nil =>
    intro l pre fuel cl hfree hfuel
    obtain ⟨f, rfl⟩ : ∃ f, fuel = f + 1 := ⟨fuel - 1, by simp at hfuel; omega⟩
    have hl : ¬ CRLF <:+: l := hfree l (by simp)
    have hdrop : List.drop (pre.length + 2) (pre ++ (CRLF ++ l)) = l := by
      rw [← List.append_assoc]
      exact List.drop_left' (by simp [CRLF])
    have hfind : find (pre ++ (CRLF ++ crlf_lines [l])) CRLF (pre.length + 2) = none := by
      rw [find_of_le _ _ _ (by simp [crlf_lines, CRLF])]
      simp [crlf_lines, hdrop, find_from_line l hl]
    simp only [extract_loop, hfind, Option.map_none', substr, scan_lines]
    simp only [crlf_lines, hdrop]
    rcases extract_line l cl with ⟨cl2, _ | e⟩ <;> rfl
  | cons l2 ls ih =>
    intro l pre fuel cl hfree hfuel
    obtain ⟨f, rfl⟩ : ∃ f, fuel = f + 1 := ⟨fuel - 1, by simp at hfuel; omega⟩
    have hl : ¬ CRLF <:+: l := hfree l (by simp)
    have hdrop : List.drop (pre.length + 2)
        (pre ++ (CRLF ++ (l ++ (CRLF ++ crlf_lines (l2 :: ls)))))
        = l ++ (CRLF ++ crlf_lines (l2 :: ls)) := by
      rw [← List.append_assoc]
      exact List.drop_left' (by simp [CRLF])
    have hcl : crlf_lines (l :: l2 :: ls) = l ++ (CRLF ++ crlf_lines (l2 :: ls)) := by
      simp [crlf_lines]
    have hfind : find (pre ++ (CRLF ++ crlf_lines (l :: l2 :: ls))) CRLF (pre.length + 2)
        = some (l.length + (pre.length + 2)) := by
      rw [find_of_le _ _ _ (by simp [hcl, CRLF]), hcl, hdrop,
        find_from_line_crlf l _ hl]
      rfl
    have hrec := ih l2 (pre ++ (CRLF ++ l)) f
    have hlen : (pre ++ (CRLF ++ l)).length = l.length + (pre.length + 2) := by
      simp [CRLF]; omega
    have hassoc : pre ++ (CRLF ++ l) ++ (CRLF ++ crlf_lines (l2 :: ls))
        = pre ++ (CRLF ++ crlf_lines (l :: l2 :: ls)) := by
      simp [hcl]
    rw [hlen, hassoc] at hrec
    simp only [extract_loop, hfind, Option.map_some', substr, scan_lines]
    rw [hcl, hdrop, Nat.add_sub_cancel, List.take_left]
    rcases extract_line l cl with ⟨cl2, _ | e⟩
    · simp only []
      rw [← hcl]
      exact hrec cl2 (fun x hx => hfree x (List.mem_cons_of_mem _ hx))
        (by simp at hfuel ⊢; omega)
    · rfl

/-- `_extract_header` on a header text given by its lines: the first line is
skipped, the lines after it are handled in order. -/
theorem extract_header_lines (p : http_header_parser_t) (l0 : List Char)
    (ls : List (List Char)) (hfree : ∀ x ∈ l0 :: ls, ¬ CRLF <:+: x)
    (hp : p.m_header = crlf_lines (l0 :: ls)) :
    _extract_header p =
      some { state := { p with content_length := (scan_lines ls p.content_length).1 },
             thrown := (scan_lines ls p.content_length).2 } := by
  cases ls with
  | nil =>
    have h0 : find_from CRLF l0 = none := find_from_line l0 (hfree l0 (by simp))
    obtain ⟨hdr, body, cl, bf, hf⟩ := p
    simp only [crlf_lines] at hp
    subst hp
    simp [_extract_header, find_zero, h0, scan_lines]
  | cons l ls =>
    have h0 : find_from CRLF (l0 ++ (CRLF ++ crlf_lines (l :: ls))) = some l0.length :=
      find_from_line_crlf l0 _ (hfree l0 (by simp))
    have hcl : crlf_lines (l0 :: l :: ls) = l0 ++ (CRLF ++ crlf_lines (l :: ls)) := by
      simp [crlf_lines]
    have hlen := length_le_crlf_lines (l :: ls)
    have hloop := extract_loop_lines ls l l0
      (l0 ++ (CRLF ++ crlf_lines (l :: ls))).length p.content_length
      (fun x hx => hfree x (List.mem_cons_of_mem _ hx))
      (by simp only [List.length_append, CRLF, List.length_cons, List.length_nil] at hlen ⊢
          omega)
    simp only [_extract_header, hp, hcl, find_zero, h0, hloop, Option.map_some']

/-- The loop of `_extract_header` ends: with the length of the header as bound on
the number of iterations the bound is never reached. -/
theorem extract_loop_returns (hdr : List Char) :
    ∀ (fuel pos cl : Nat), pos + 2 ≤ hdr.length → hdr.length < fuel + pos + 2 →
      (extract_loop hdr fuel pos cl).isSome = true := by
  intro fuel
  induction fuel with
  | zero => intro pos cl h1 h2; omega
  | succ f ih =>
    intro pos cl h1 h2
    simp only [extract_loop]
    rcases extract_line (substr hdr (pos + 2)
      (Option.map (fun x => x - (pos + 2)) (find hdr CRLF (pos + 2)))) cl with ⟨cl2, _ | e⟩
    · cases hf : find hdr CRLF (pos + 2) with
      | none => rfl
      | some np =>
        have hb := find_some_bounds CRLF_ne_nil hf
        simp only [CRLF, List.length_cons, List.length_nil] at hb
        exact ih np cl2 (by omega) (by omega)
    · rfl

/-- `_extract_header` returns (normally or by an exception) on every parser state. -/
theorem extract_header_returns (p : http_header_parser_t) :
    (_extract_header p).isSome = true := by
  unfold _extract_header
  cases hf : find p.m_header CRLF 0 with
  | none => rfl
  | some pos =>
    have hb := find_some_bounds CRLF_ne_nil hf
    simp only [CRLF, List.length_cons, List.length_nil] at hb
    have := extract_loop_returns p.m_header p.m_header.length pos p.content_length
      (by omega) (by omega)
    simpa using this

/-! ## One header line -/

theorem extract_line_of_not_named (l : List Char) (cl : Nat)
    (h : names_content_length l = false) : extract_line l cl = (cl, none) := by
  unfold names_content_length at h
  unfold extract_line
  cases hf : find l COLON_SPACE 0 with
  | none => rfl
  | some colon =>
    rw [hf] at h
    simp only [decide_eq_false_iff_not] at h
    simp [h]

theorem scan_lines_of_not_named (ls : List (List Char)) (cl : Nat)
    (h : ∀ l ∈ ls, names_content_length l = false) : scan_lines ls cl = (cl, none) := by
  induction ls with
  | nil => rfl
  | cons l ls ih =>
    rw [scan_lines, extract_line_of_not_named l cl (h l (by simp))]
    exact ih (fun x hx => h x (List.mem_cons_of_mem _ hx))

theorem scan_lines_append_of_not_named (pre rest : List (List Char)) (cl : Nat)
    (h : ∀ l ∈ pre, names_content_length l = false) :
    scan_lines (pre ++ rest) cl = scan_lines rest cl := by
  induction pre with
  | nil => rfl
  | cons l ls ih =>
    rw [List.cons_append, scan_lines, extract_line_of_not_named l cl (h l (by simp))]
    exact ih (fun x hx => h x (List.mem_cons_of_mem _ hx))

/-- A key that lowers to `content-length` contains no carriage return. -/
theorem key_no_cr (K : List Char) (hK : K.map to_lower = content_length_key) :
    ∀ c ∈ K, c ≠ '\r' := by
  intro c hc hcr
  have hmem : to_lower c ∈ K.map to_lower := List.mem_map_of_mem _ hc
  rw [hK, hcr] at hmem
  revert hmem
  decide

/-- A key that lowers to `content-length` contains no colon. -/
theorem key_no_colon (K : List Char) (hK : K.map to_lower = content_length_key) :
    ∀ c ∈ K, c ≠ ':' := by
  intro c hc hcolon
  have hmem : to_lower c ∈ K.map to_lower := List.mem_map_of_mem _ hc
  rw [hK, hcolon] at hmem
  revert hmem
  decide

theorem find_from_key (K V : List Char) (hK : ∀ c ∈ K, c ≠ ':') :
    find_from COLON_SPACE (K ++ (COLON_SPACE ++ V)) = some K.length := by
  rw [find_from_some_iff _ _ (by simp [COLON_SPACE])]
  refine ⟨?_, fun j hj hpre => ?_⟩
  · rw [List.drop_left]
    exact List.prefix_append _ _
  · rw [List.drop_append_of_le_length (by omega)] at hpre
    have hmem : ∀ c ∈ K.drop j, c ≠ ':' := fun c hc => hK c (List.mem_of_mem_drop hc)
    have hlen : 0 < (K.drop j).length := by rw [List.length_drop]; omega
    generalize K.drop j = d at hpre hmem hlen
    match d, hlen with
    | x :: d2, _ =>
      obtain ⟨t, ht⟩ := hpre
      simp only [COLON_SPACE, List.cons_append, List.nil_append, List.cons.injEq] at ht
      exact hmem x (by simp) ht.1.symm

/-- The loop body on a line `K: V` whose key lowers to `content-length`. -/
theorem extract_line_named (K V : List Char) (cl : Nat)
    (hK : K.map to_lower = content_length_key) :
    extract_line (K ++ (COLON_SPACE ++ V)) cl =
      match stoi V with
      | Except.ok v => (int_to_size_t v, none)
      | Except.error e => (cl, some e) := by
  have hf := find_from_key K V (key_no_colon K hK)
  have hv : List.drop (K.length + 2) (K ++ (COLON_SPACE ++ V)) = V := by
    rw [← List.append_assoc]
    exact List.drop_left' (by simp [COLON_SPACE])
  simp only [extract_line, find_zero, hf, substr, List.drop_zero, List.take_left, hK,
    if_true, hv]

theorem names_content_length_named (K V : List Char)
    (hK : K.map to_lower = content_length_key) :
    names_content_length (K ++ (COLON_SPACE ++ V)) = true := by
  have hf := find_from_key K V (key_no_colon K hK)
  simp [names_content_length, find_zero, hf, substr, hK]

/-! ## `std::stoi` on a run of digits -/

theorem isDigit_bounds (c : Char) (h : c.isDigit = true) : 48 ≤ c.toNat ∧ c.toNat ≤ 57 := by
  simp only [Char.isDigit, Bool.and_eq_true, decide_eq_true_eq] at h
  exact ⟨h.1, h.2⟩

theorem stoi_digits (V : List Char) (hne : V ≠ []) (hd : ∀ c ∈ V, c.isDigit = true)
    (hr : digits_value V < 2 ^ 31) : stoi V = Except.ok (digits_value V : Int) := by
  obtain ⟨x, xs, rfl⟩ := List.exists_cons_of_ne_nil hne
  have hx := isDigit_bounds x (hd x (by simp))
  have hsp : isspace x = false := by
    simp only [isspace, Bool.or_eq_false_iff, Bool.and_eq_false_iff, decide_eq_false_iff_not]
    omega
  have h1 : (x :: xs).dropWhile isspace = x :: xs := by simp [List.dropWhile, hsp]
  have hm : x ≠ '-' := by
    intro h
    have : (x.toNat) = 45 := by rw [h]; decide
    omega
  have hp : x ≠ '+' := by
    intro h
    have : (x.toNat) = 43 := by rw [h]; decide
    omega
  have h2 : (x :: xs).takeWhile Char.isDigit = x :: xs :=
    List.takeWhile_eq_self_iff.mpr hd
  have hr2 : ((digits_value (x :: xs) : Nat) : Int) < 2 ^ 31 := by exact_mod_cast hr
  have hr3 : (0 : Int) ≤ ((digits_value (x :: xs) : Nat) : Int) := Int.ofNat_nonneg _
  simp only [stoi, h1, List.head?_cons, Option.some.injEq, hm, hp, or_self, if_false,
    h2, decide_False, Bool.false_eq_true]
  rw [if_neg (by simp), if_neg (by omega)]

theorem int_to_size_t_natCast (n : Nat) (h : n < 2 ^ 64) : int_to_size_t (n : Int) = n := by
  unfold int_to_size_t
  have : ((n : Int) % (2 : Int) ^ 64) = (n : Int) :=
    Int.emod_eq_of_lt (Int.ofNat_nonneg n) (by exact_mod_cast h)
  rw [this]
  rfl

theorem crlf_free_append (A V : List Char) (hA : ∀ c ∈ A, c ≠ '\r')
    (hV : ¬ CRLF <:+: V) : ¬ CRLF <:+: A ++ V := by
  induction A with
  | nil => simpa using hV
  | cons a A ih =>
    rw [List.cons_append, List.infix_cons_iff]
    rintro (⟨t, ht⟩ | h)
    · simp only [CRLF, List.cons_append, List.nil_append, List.cons.injEq] at ht
      exact hA a (by simp) ht.1.symm
    · exact ih (fun c hc => hA c (List.mem_cons_of_mem _ hc)) h

/-- A line `K: V` whose key lowers to `content-length` has no `"\r\n"` unless `V` has. -/
theorem field_line_crlf_free (K V : List Char) (hK : K.map to_lower = content_length_key)
    (hV : ¬ CRLF <:+: V) : ¬ CRLF <:+: K ++ (COLON_SPACE ++ V) := by
  rw [← List.append_assoc]
  refine crlf_free_append _ V (fun c hc => ?_) hV
  rcases List.mem_append.mp hc with h | h
  · exact key_no_cr K hK c h
  · intro hcr
    rw [hcr] at h
    revert h
    decide

/-- The lines after the first when exactly one of them, `K: V`, names
`content-length`: the outcome is that of `std::stoi` on `V`. -/
theorem scan_lines_single_field (pre post : List (List Char)) (K V : List Char) (cl : Nat)
    (hK : K.map to_lower = content_length_key)
    (hpre : ∀ x ∈ pre, names_content_length x = false) :
    scan_lines (pre ++ (K ++ (COLON_SPACE ++ V)) :: post) cl =
      match stoi V with
      | Except.ok v => scan_lines post (int_to_size_t v)
      | Except.error e => (cl, some e) := by
  rw [scan_lines_append_of_not_named pre _ cl hpre, scan_lines, extract_line_named K V cl hK]
  cases stoi V <;> rfl

theorem lines_crlf_free (l0 K V : List Char) (pre post : List (List Char))
    (hK : K.map to_lower = content_length_key)
    (hfree : ∀ x ∈ l0 :: (pre ++ post), ¬ CRLF <:+: x) (hV : ¬ CRLF <:+: V) :
    ∀ x ∈ l0 :: (pre ++ (K ++ (COLON_SPACE ++ V)) :: post), ¬ CRLF <:+: x := by
  intro x hx
  simp only [List.mem_cons, List.mem_append] at hx hfree
  rcases hx with h | h | h | h
  · exact hfree x (Or.inl h)
  · exact hfree x (Or.inr (Or.inl h))
  · rw [h]
    exact field_line_crlf_free K V hK hV
  · exact hfree x (Or.inr (Or.inr h))

/-- `_extract_header` on a header text whose lines after the first contain the
line `K: V`, with no line naming `content-length` in front of it. -/
theorem extract_header_single_field (p : http_header_parser_t) (l0 K V : List Char)
    (pre post : List (List Char))
    (hK : K.map to_lower = content_length_key)
    (hp : p.m_header = crlf_lines (l0 :: (pre ++ (K ++ (COLON_SPACE ++ V)) :: post)))
    (hfree : ∀ x ∈ l0 :: (pre ++ post), ¬ CRLF <:+: x) (hV : ¬ CRLF <:+: V)
    (hpre : ∀ x ∈ pre, names_content_length x = false) :
    _extract_header p =
      match stoi V with
      | Except.ok v =>
        some { state := { p with content_length := (scan_lines post (int_to_size_t v)).1 },
               thrown := (scan_lines post (int_to_size_t v)).2 }
      | Except.error e => some { state := p, thrown := some e } := by
  rw [extract_header_lines p l0 _ (lines_crlf_free l0 K V pre post hK hfree hV) hp,
    scan_lines_single_field pre post K V _ hK hpre]
  cases stoi V <;> rfl

/-! ## The claims about `_extract_header` -/

/-- C5 (as stated, refuted). The header text `"CONTENT-LENGTH: 5"` consists of the
line `K: 5` with `K` a case variant of `content-length`, and `_extract_header`
leaves `content_length` at 0: the first line is never examined.  In
`"GET / HTTP/1.1\r\nContent-Length: 5\r\ncontent-length: 7"` the line
`Content-Length: 5` is present and `content_length` ends as 7. -/
theorem extract_header_case_insensitive_counterexample :
    "CONTENT-LENGTH".toList.map to_lower = content_length_key ∧
    "CONTENT-LENGTH: 5".toList = crlf_lines ["CONTENT-LENGTH".toList ++ (COLON_SPACE ++ ['5'])] ∧
    (_extract_header { fresh with m_header := "CONTENT-LENGTH: 5".toList }).map
      (fun r => (r.state.content_length, r.thrown)) = some (0, none) ∧
    "GET / HTTP/1.1\r\nContent-Length: 5\r\ncontent-length: 7".toList =
      crlf_lines ["GET / HTTP/1.1".toList,
        "Content-Length".toList ++ (COLON_SPACE ++ ['5']), "content-length: 7".toList] ∧
    (_extract_header { fresh with
        m_header := "GET / HTTP/1.1\r\nContent-Length: 5\r\ncontent-length: 7".toList }).map
      (fun r => (r.state.content_length, r.thrown)) = some (7, none) := by
  decide

/-- C5 (amended). Case-insensitivity of `_extract_header`: for every field name
`K` that lowers to `content-length` and every header text, given by its lines,
in which the line `K: 5` stands after the first line and no other line after the
first names `content-length`, `_extract_header` returns normally with
`content_length = 5` and the rest of the state unchanged, whichever case variant
`K` is. -/
theorem extract_header_case_insensitive (p : http_header_parser_t) (l0 K : List Char)
    (pre post : List (List Char))
    (hK : K.map to_lower = content_length_key)
    (hp : p.m_header = crlf_lines (l0 :: (pre ++ (K ++ (COLON_SPACE ++ ['5'])) :: post)))
    (hfree : ∀ x ∈ l0 :: (pre ++ post), ¬ CRLF <:+: x)
    (hother : ∀ x ∈ pre ++ post, names_content_length x = false) :
    _extract_header p = some { state := { p with content_length := 5 }, thrown := none } := by
  have hpre : ∀ x ∈ pre, names_content_length x = false :=
    fun x hx => hother x (List.mem_append_left _ hx)
  have hpost : ∀ x ∈ post, names_content_length x = false :=
    fun x hx => hother x (List.mem_append_right _ hx)
  have h := extract_header_single_field p l0 K ['5'] pre post hK hp hfree (by decide) hpre
  have hs : stoi ['5'] = Except.ok 5 := rfl
  have hc : int_to_size_t 5 = 5 := by decide
  rw [hs] at h
  simp only [hc, scan_lines_of_not_named post 5 hpost] at h
  exact h

/-- Witness of C5: `CONTENT-LENGTH: 5` as third line of a four-line header. -/
theorem extract_header_case_insensitive_witness :
    _extract_header { fresh with
        m_header := "GET / HTTP/1.1\r\nHost: x\r\nCONTENT-LENGTH: 5\r\nAccept: y".toList } =
      some { state := { fresh with
                m_header := "GET / HTTP/1.1\r\nHost: x\r\nCONTENT-LENGTH: 5\r\nAccept: y".toList,
                content_length := 5 },
             thrown := none } :=
  extract_header_case_insensitive
    { fresh with
        m_header := "GET / HTTP/1.1\r\nHost: x\r\nCONTENT-LENGTH: 5\r\nAccept: y".toList }
    "GET / HTTP/1.1".toList "CONTENT-LENGTH".toList ["Host: x".toList] ["Accept: y".toList]
    (by decide) (by decide) (by decide) (by decide)

/-- C7 (as stated, refuted). The values `12abc`, `-1` and ` 5` are not non-empty
strings of digits, yet `_extract_header` returns normally on them and stores 12,
`2 ^ 64 - 1` (the `int` -1 converted to `size_t`) and 5: `std::stoi` skips leading
white space, reads a sign and stops at the first character that is not a digit. -/
theorem extract_header_malformed_counterexample :
    (_extract_header { fresh with
        m_header := "GET / HTTP/1.1\r\nContent-Length: 12abc".toList }).map
      (fun r => (r.state.content_length, r.thrown)) = some (12, none) ∧
    (_extract_header { fresh with
        m_header := "GET / HTTP/1.1\r\nContent-Length: -1".toList }).map
      (fun r => (r.state.content_length, r.thrown)) = some (2 ^ 64 - 1, none) ∧
    (_extract_header { fresh with
        m_header := "GET / HTTP/1.1\r\nContent-Length:  5".toList }).map
      (fun r => (r.state.content_length, r.thrown)) = some (5, none) := by
  decide

/-- C7 (amended). Malformed length is an error: for every header text, given by
its lines, in which a line `K: V` with `K` lowering to `content-length` stands
after the first line with no line naming `content-length` between the first line
and it, if `std::stoi` fails on `V` with exception `e` (no digit after optional
leading white space and one optional sign, or a number outside the `int` range),
then `_extract_header` ends with that exception and the parser state, in
particular `content_length`, is unchanged. -/
theorem extract_header_malformed (p : http_header_parser_t) (l0 K V : List Char)
    (pre post : List (List Char)) (e : stoi_exception)
    (hK : K.map to_lower = content_length_key)
    (hp : p.m_header = crlf_lines (l0 :: (pre ++ (K ++ (COLON_SPACE ++ V)) :: post)))
    (hfree : ∀ x ∈ l0 :: (pre ++ post), ¬ CRLF <:+: x) (hV : ¬ CRLF <:+: V)
    (hpre : ∀ x ∈ pre, names_content_length x = false)
    (hfail : stoi V = Except.error e) :
    _extract_header p = some { state := p, thrown := some e } := by
  have h := extract_header_single_field p l0 K V pre post hK hp hfree hV hpre
  rw [hfail] at h
  exact h

/-- Witness of C7: the value `abc`. -/
theorem extract_header_malformed_witness :
    _extract_header { fresh with
        m_header := "GET / HTTP/1.1\r\nHost: x\r\nContent-Length: abc\r\nAccept: y".toList } =
      some { state := { fresh with
                m_header :=
                  "GET / HTTP/1.1\r\nHost: x\r\nContent-Length: abc\r\nAccept: y".toList },
             thrown := some stoi_exception.invalid_argument } :=
  extract_header_malformed
    { fresh with
        m_header := "GET / HTTP/1.1\r\nHost: x\r\nContent-Length: abc\r\nAccept: y".toList }
    "GET / HTTP/1.1".toList "Content-Length".toList "abc".toList
    ["Host: x".toList] ["Accept: y".toList] stoi_exception.invalid_argument
    (by decide) (by decide) (by decide) (by decide) (by decide) rfl

/-- C9 (as stated, refuted). On the single-line header text `"Content-Length: 3"`
`_extract_header` returns normally and `content_length` is still 0: the loop
starts behind the first `"\r\n"`, so the first line is not examined.  The same
holds when other lines follow. -/
theorem extract_header_first_line_counterexample :
    (_extract_header { fresh with m_header := "Content-Length: 3".toList }).map
      (fun r => (r.state.content_length, r.thrown)) = some (0, none) ∧
    (_extract_header { fresh with m_header := "Content-Length: 3\r\nHost: x".toList }).map
      (fun r => (r.state.content_length, r.thrown)) = some (0, none) := by
  decide

/-- C9 (amended). `_extract_header` examines every line after the first line: for
every header text, given by its lines, in which a line `K: V` with `K` lowering
to `content-length` stands at any position after the first line, `V` being a
non-empty string of decimal digits with value in `int` range, and no other line
after the first names `content-length`, `_extract_header` returns normally with
`content_length` equal to the value of `V` and the rest of the state unchanged. -/
theorem extract_header_line_after_first (p : http_header_parser_t) (l0 K V : List Char)
    (pre post : List (List Char))
    (hK : K.map to_lower = content_length_key)
    (hp : p.m_header = crlf_lines (l0 :: (pre ++ (K ++ (COLON_SPACE ++ V)) :: post)))
    (hfree : ∀ x ∈ l0 :: (pre ++ post), ¬ CRLF <:+: x)
    (hother : ∀ x ∈ pre ++ post, names_content_length x = false)
    (hne : V ≠ []) (hd : ∀ c ∈ V, c.isDigit = true) (hr : digits_value V < 2 ^ 31) :
    _extract_header p =
      some { state := { p with content_length := digits_value V }, thrown := none } := by
  have hpre : ∀ x ∈ pre, names_content_length x = false :=
    fun x hx => hother x (List.mem_append_left _ hx)
  have hpost : ∀ x ∈ post, names_content_length x = false :=
    fun x hx => hother x (List.mem_append_right _ hx)
  have hV : ¬ CRLF <:+: V := by
    intro hin
    have hmem : '\r' ∈ V := hin.subset (by simp [CRLF])
    exact absurd (hd _ hmem) (by decide)
  have h := extract_header_single_field p l0 K V pre post hK hp hfree hV hpre
  rw [stoi_digits V hne hd hr] at h
  simp only [scan_lines_of_not_named post _ hpost] at h
  rwa [int_to_size_t_natCast _ (by omega)] at h

/-- Witness of C9: `Content-Length: 3` as second and last line. -/
theorem extract_header_line_after_first_witness :
    _extract_header { fresh with m_header := "POST / HTTP/1.1\r\nContent-Length: 3".toList } =
      some { state := { fresh with
                m_header := "POST / HTTP/1.1\r\nContent-Length: 3".toList,
                content_length := digits_value "3".toList },
             thrown := none } :=
  extract_header_line_after_first
    { fresh with m_header := "POST / HTTP/1.1\r\nContent-Length: 3".toList }
    "POST / HTTP/1.1".toList "Content-Length".toList "3".toList [] []
    (by decide) (by decide) (by decide) (by decide) (by decide) (by decide) (by decide)
